import Mathlib

/-!
# keyleds: render target, render loop and the wave effect

A shallow embedding of

* `src/keyledsd/include/keyledsd/RenderLoop.h` (`RenderTarget`, `RenderLoop`, `Renderer`),
* `src/keyledsd/plugins/src/wave.cxx` (`WaveEffect`).

Conventions of the embedding.

* `std::chrono::milliseconds` is a signed 64-bit count: an `Int`, and every sum, difference
  and product of durations is reduced to 64 bits in two's complement (`wrapInt64`), which is
  what the compiled code computes when the exact result does not fit.
* `std::size_t` and `unsigned` values are `Nat`.
* A C array together with its element count, and a `std::vector`, are a `List`; a pointer
  into the colour array is the offset of the cell it points to.
* An access outside a vector is undefined in C++. The model reads the zero colour there and
  drops a write there; every theorem about a selected entry assumes the index in range.
* Single precision arithmetic (`computePhases`, the channel interpolation of
  `generateColorTable`) is not evaluated: it is a parameter, `FloatOps`.
-/

namespace keyleds

/-! ## Colours -/

/-- Colour cell of four 8-bit channels (`keyleds::RGBAColor`, a POD type). -/
structure RGBAColor where
  red : Nat
  green : Nat
  blue : Nat
  alpha : Nat
deriving DecidableEq, Repr

/-- Number of samples of the colour table: `static constexpr unsigned int accuracy = 1024`. -/
def accuracy : Nat := 1024

/-- The colour `keyleds::RGBAColor{0, 0, 0, 0}` of wave.cxx line 30. -/
def transparent : RGBAColor := ⟨0, 0, 0, 0⟩

/-- Largest value of a colour channel (`channel_type` is 8 bits wide). -/
def channelMax : Nat := 255

/-! ## RenderTarget (RenderLoop.h lines 43-73) -/

/-- Number of bytes blocks are aligned on: `align_bytes = 32`. -/
def align_bytes : Nat := 32

/-- Size of a colour cell in bytes: `sizeof(RGBAColor)`, four 8-bit channels. -/
def sizeofRGBAColor : Nat := 4

/-- Number of cells blocks are aligned on: `align_colors = align_bytes / sizeof(RGBAColor)`. -/
def align_colors : Nat := align_bytes / sizeofRGBAColor

/-- Rendering buffer for key colours. `m_colors` is the colour buffer, `m_blocks` holds for
every block the offset in `m_colors` of its first cell (a block pointer within `m_colors`). -/
structure RenderTarget where
  m_colors : List RGBAColor
  m_blocks : List Nat
deriving DecidableEq, Repr

namespace RenderTarget

/-- Number of items in `m_colors` (the member `m_nbColors`). -/
def m_nbColors (rt : RenderTarget) : Nat := rt.m_colors.length

/-- Line 57: `size() const noexcept { return m_nbColors; }`. -/
def size (rt : RenderTarget) : Nat := rt.m_nbColors

/-- The cells visited from `begin()` (`&m_colors[0]`) up to `end()` (`&m_colors[m_nbColors]`),
in order: the iterator is a plain `RGBAColor *`, so these are consecutive cells of `m_colors`. -/
def flat (rt : RenderTarget) : List RGBAColor := rt.m_colors.take rt.m_nbColors

/-- Lines 61-62: `get(bidx, kidx)` is the cell at `m_blocks[bidx] + kidx`; the reference it
returns is identified with the offset of that cell in `m_colors`. -/
def get (rt : RenderTarget) (bidx kidx : Nat) : Nat := rt.m_blocks.getD bidx 0 + kidx

/-- Lines 63-64: `get(desc)` is the cell at `m_blocks[desc.first] + desc.second`. -/
def getDesc (rt : RenderTarget) (desc : Nat × Nat) : Nat := rt.m_blocks.getD desc.1 0 + desc.2

/-- Reading through a cell reference. -/
def read (rt : RenderTarget) (cell : Nat) : RGBAColor := rt.m_colors.getD cell transparent

/-- Assignment through a cell reference (`target.get(b, k) = c`, `m_buffer[i] = c`). -/
def write (rt : RenderTarget) (cell : Nat) (c : RGBAColor) : RenderTarget :=
  { rt with m_colors := rt.m_colors.set cell c }

/-- The call `std::fill(rt.begin(), rt.end(), c)`. -/
def fill (rt : RenderTarget) (c : RGBAColor) : RenderTarget :=
  { rt with m_colors := List.replicate rt.m_nbColors c ++ rt.m_colors.drop rt.m_nbColors }

end RenderTarget

/-- Smallest multiple of `align_colors` that is not below `n`. -/
def alignUp (n : Nat) : Nat := (n + align_colors - 1) / align_colors * align_colors

/-- Modelled from the spec: the block table the constructor `RenderTarget(block_sizes)`
builds (its body is not part of the sources). All blocks lie in one allocation, every block
is contiguous, and the start of each block after the first is rounded up to the alignment
(section 3, and the class comment of RenderLoop.h). `cur` is the offset reached so far. -/
def blockOffsets (cur : Nat) : List Nat → List Nat
  | [] => []
  | size :: rest => cur :: blockOffsets (alignUp (cur + size)) rest

/-- Modelled from the spec: the number of cells the constructor allocates, "the sum of
sizes plus inter-block padding" (section 4.1): the offset just past the last block. -/
def layoutEnd (cur : Nat) : List Nat → Nat
  | [] => cur
  | size :: rest =>
    match rest with
    | [] => cur + size
    | _ :: _ => layoutEnd (alignUp (cur + size)) rest

/-- Cells of padding inserted between the blocks laid out from offset `cur` on. -/
def interBlockPadding (cur : Nat) : List Nat → Nat
  | [] => 0
  | size :: rest =>
    match rest with
    | [] => 0
    | _ :: _ => (alignUp (cur + size) - (cur + size)) + interBlockPadding (alignUp (cur + size)) rest

/-- Modelled from the spec: `create(block_sizes)`, the constructor
`RenderTarget(const std::vector<std::size_t> & block_sizes)` whose body is missing from the
sources: it yields a buffer sized to the sum of the sizes plus the padding between blocks,
every cell initialised to the zero colour, and the table of block starts. -/
def RenderTarget.create (block_sizes : List Nat) : RenderTarget :=
  { m_colors := List.replicate (layoutEnd 0 block_sizes) transparent
    m_blocks := blockOffsets 0 block_sizes }

/-- Modelled from the spec: what holds of a buffer created from `block_sizes` whatever
padding the constructor (whose body is missing from the sources) inserts. There is one block
pointer per block; every block starts on a multiple of `align_colors` cells (class comment of
RenderLoop.h, lines 36-38, and lines 45-46); the cells of every block are items of
`m_colors`; two valid pairs of block and key index that differ denote different cells; every
cell holds the zero colour (sections 3 and 4.1). -/
def RenderTarget.CreatedFrom (rt : RenderTarget) (block_sizes : List Nat) : Prop :=
  rt.m_blocks.length = block_sizes.length ∧
  (∀ b, b < block_sizes.length → rt.m_blocks.getD b 0 % align_colors = 0) ∧
  (∀ b k, b < block_sizes.length → k < block_sizes.getD b 0 → rt.get b k < rt.m_nbColors) ∧
  (∀ b k b2 k2, b < block_sizes.length → k < block_sizes.getD b 0 →
    b2 < block_sizes.length → k2 < block_sizes.getD b2 0 →
    rt.get b k = rt.get b2 k2 → b = b2 ∧ k = k2) ∧
  (∀ c ∈ rt.m_colors, c = transparent)

/-! ## Compositing -/

/-- Modelled from the spec: the alpha blend of one source cell `S` onto a destination cell `D`
(section 4.4); the function `blend` called by wave.cxx line 96 is not part of the sources.
A source of alpha 0 leaves `D`, a source of maximal alpha replaces it, anything else is the
linear interpolation, truncated to the integer channel range. -/
def blendCell (D S : RGBAColor) : RGBAColor :=
  if S.alpha = 0 then D
  else if S.alpha = channelMax then S
  else
    { red := (S.red * S.alpha + D.red * (channelMax - S.alpha)) / channelMax
      green := (S.green * S.alpha + D.green * (channelMax - S.alpha)) / channelMax
      blue := (S.blue * S.alpha + D.blue * (channelMax - S.alpha)) / channelMax
      alpha := S.alpha + D.alpha * (channelMax - S.alpha) / channelMax }

/-- Modelled from the spec: `blend(target, source)` merges every cell of the source buffer
onto the cell of the target at the same place, by `blendCell`; the two buffers have the same
shape. The function itself is missing from the sources. -/
def blend (target source : RenderTarget) : RenderTarget :=
  { target with m_colors := List.zipWith blendCell target.m_colors source.m_colors }

/-! ## The key database and the effect service (declared in headers that are not available;
only the members wave.cxx uses are kept) -/

/-- Rectangle `{x0, y0, x1, y1}` of `KeyDatabase::bounds()` and `key.position`. -/
structure Rect where
  x0 : Nat
  y0 : Nat
  x1 : Nat
  y1 : Nat
deriving DecidableEq, Repr

/-- One key of the database: `index` is its cell in a render target. -/
structure Key where
  index : Nat
  position : Rect
deriving DecidableEq, Repr

/-- The key database: `size()` and `operator[]` go through `keys`. -/
structure KeyDatabase where
  keys : List Key
  bounds : Rect
deriving DecidableEq, Repr

/-- What `WaveEffect` asks of its `EffectService`: the key database, the value of
`getConfig` for each option (absent options are `none`) and the buffer handed out by
`createRenderTarget()`. -/
structure EffectService where
  keyDB : KeyDatabase
  period : Option Int
  group : Option (List Key)
  length : Option Nat
  direction : Option Nat
  colors : Option (List RGBAColor)
  createRenderTarget : RenderTarget
deriving DecidableEq, Repr

/-- The single precision computations of wave.cxx, kept abstract.
`keyPhase bounds length direction key` is the lambda of lines 112-123 (with `freqX`, `freqY`
of lines 104-109); `interpolate a b k n` is the colour of lines 147-154 for
`idx - first = k` and `last - first = n`. -/
structure FloatOps where
  keyPhase : Rect → Nat → Nat → Key → Nat
  interpolate : RGBAColor → RGBAColor → Nat → Nat → RGBAColor

/-! ## WaveEffect (wave.cxx) -/

/-- Lines 125-133 of `computePhases`: one phase per key of the group, or per key of the
database when there is no group. -/
def computePhases (fl : FloatOps) (keyDB : KeyDatabase) (keys : Option (List Key))
    (length direction : Nat) : List Nat :=
  match keys with
  | some group => group.map (fl.keyPhase keyDB.bounds length direction)
  | none => keyDB.keys.map (fl.keyPhase keyDB.bounds length direction)

/-- Bounds of the index range written for colour number `range`: line 141 gives
`first = rangeBound n range`, line 142 gives `last = rangeBound n (range + 1)`, with
`table.size() = accuracy`. -/
def rangeBound (n range : Nat) : Nat := range * accuracy / n

/-- The assignments `table[idx] = ...` that the two loops of `generateColorTable`
(lines 140-156) perform, in the order they perform them, as pairs of index and colour. -/
def tableWrites (fl : FloatOps) (colors : List RGBAColor) : List (Nat × RGBAColor) :=
  (List.range colors.length).flatMap fun range =>
    let first := rangeBound colors.length range
    let last := rangeBound colors.length (range + 1)
    let colorA := colors.getD range transparent
    let colorB := colors.getD (if range + 1 ≥ colors.length then 0 else range + 1) transparent
    (List.range' first (last - first)).map fun idx =>
      (idx, fl.interpolate colorA colorB (idx - first) (last - first))

/-- Lines 136-158: a table of `accuracy` value-initialised (zero) colours, on which the
assignments of the loops are carried out. -/
def generateColorTable (fl : FloatOps) (colors : List RGBAColor) : List RGBAColor :=
  (tableWrites fl colors).foldl (fun table w => table.set w.1 w.2)
    (List.replicate accuracy transparent)

/-- Value of a signed 64-bit expression whose exact result is `n` (two's complement). -/
def wrapInt64 (n : Int) : Int := (n + 2 ^ 63) % 2 ^ 64 - 2 ^ 63

/-- State of a `WaveEffect` (members of lines 161-169). -/
structure WaveEffect where
  m_service : EffectService
  m_period : Int
  m_keys : Option (List Key)
  m_phases : List Nat
  m_colors : List RGBAColor
  m_buffer : RenderTarget
  m_time : Int
deriving DecidableEq, Repr

namespace WaveEffect

/-- The constructor, lines 43-56. -/
def new (fl : FloatOps) (service : EffectService) (period : Int) : WaveEffect :=
  { m_service := service
    m_period := period
    m_keys := service.group
    m_phases := computePhases fl service.keyDB service.group
      (service.length.getD 1000) (service.direction.getD 0)
    m_colors := generateColorTable fl (service.colors.getD [])
    m_buffer := service.createRenderTarget.fill transparent
    m_time := 0 }

/-- Lines 58-71: `create` returns `nullptr` (`none`) or the new effect. -/
def create (fl : FloatOps) (service : EffectService) : Option WaveEffect :=
  let bounds := service.keyDB.bounds
  if ¬ (bounds.x0 < bounds.x1 ∧ bounds.y0 < bounds.y1) then none
  else
    let period := service.period.getD 10000
    if period < 1000 then none
    else some (new fl service period)

/-- Lines 75-76: `m_time += elapsed; if (m_time >= m_period) { m_time -= m_period; }`, on
64-bit counts. -/
def nextTime (m_period m_time elapsed : Int) : Int :=
  let m_time := wrapInt64 (m_time + elapsed)
  if m_time ≥ m_period then wrapInt64 (m_time - m_period) else m_time

/-- Line 78: `auto t = accuracy * m_time / m_period`: the product is a 64-bit count and the
division of C++ truncates. -/
def tableTime (m_period m_time : Int) : Int :=
  Int.tdiv (wrapInt64 ((accuracy : Int) * m_time)) m_period

/-- Lines 83 and 91: `auto tphi = (t >= m_phases[idx] ? 0 : accuracy) + t - m_phases[idx]`. -/
def tphi (t : Int) (phase : Nat) : Int :=
  (if t ≥ (phase : Int) then (0 : Int) else (accuracy : Int)) + t - (phase : Int)

/-- The read `m_colors[tphi]`. -/
def colorAt (m_colors : List RGBAColor) : Int → RGBAColor
  | Int.ofNat n => m_colors.getD n transparent
  | Int.negSucc _ => transparent

/-- The loops of lines 82-86 and 90-94, entered at counter `idx` with the keys still to
visit: `m_buffer[key.index] = m_colors[tphi]`. -/
def paint (m_colors : List RGBAColor) (m_phases : List Nat) (t : Int) :
    Nat → List Key → RenderTarget → RenderTarget
  | _, [], m_buffer => m_buffer
  | idx, key :: rest, m_buffer =>
    paint m_colors m_phases t (idx + 1) rest
      (m_buffer.write key.index (colorAt m_colors (tphi t (m_phases.getD idx 0))))

/-- The keys the loops of `render` go over: the group, or the whole database. -/
def paintedKeys (e : WaveEffect) : List Key :=
  match e.m_keys with
  | some group => group
  | none => e.m_service.keyDB.keys

/-- Lines 73-97: the effect after `render(elapsed, target)` and the target it leaves. -/
def render (e : WaveEffect) (elapsed : Int) (target : RenderTarget) :
    WaveEffect × RenderTarget :=
  let m_time := nextTime e.m_period e.m_time elapsed
  let t := tableTime e.m_period m_time
  let m_buffer :=
    match e.m_keys with
    | some group => paint e.m_colors e.m_phases t 0 group e.m_buffer
    | none => paint e.m_colors e.m_phases t 0 e.m_service.keyDB.keys e.m_buffer
  ({ e with m_time := m_time, m_buffer := m_buffer }, blend target m_buffer)

/-- The index `tphi` that `render(elapsed, _)` computes for a key of phase `phase`: lines 75-78
followed by line 83 (or 91). -/
def renderTphi (e : WaveEffect) (elapsed : Int) (phase : Nat) : Int :=
  tphi (tableTime e.m_period (nextTime e.m_period e.m_time elapsed)) phase

/-- The effect after a sequence of `render` calls, each with its own elapsed time and
target. -/
def renderCalls (e : WaveEffect) (calls : List (Int × RenderTarget)) : WaveEffect :=
  calls.foldl (fun e call => (e.render call.1 call.2).1) e

end WaveEffect

/-! ## Renderer and RenderLoop (RenderLoop.h lines 84-122) -/

/-- The interface of line 121, `render(unsigned long nanosec, RenderTarget & target)`: what
a renderer makes of the target it is handed. -/
abbrev Renderer := Nat → RenderTarget → RenderTarget

/-- Members of `RenderLoop` (lines 101-107); the device and the mutex are left out. -/
structure RenderLoop where
  m_renderers : List Renderer
  m_state : RenderTarget
  m_buffer : RenderTarget

namespace RenderLoop

/-- Modelled from the spec: the constructor `RenderLoop(device, renderers, fps)`, whose body
is missing from the sources; both buffers are created once from the block sizes of the
device (section 3). -/
def new (block_sizes : List Nat) (renderers : List Renderer) : RenderLoop :=
  { m_renderers := renderers
    m_state := RenderTarget.create block_sizes
    m_buffer := RenderTarget.create block_sizes }

/-- Modelled from the spec: `setRenderers(renderers)`, declared at line 92, whose body is
missing from the sources; the list is replaced as a whole (section 4.3). -/
def setRenderers (loop : RenderLoop) (renderers : List Renderer) : RenderLoop :=
  { loop with m_renderers := renderers }

/-- Modelled from the spec: the per-tick algorithm of section 4.3, the body of
`bool RenderLoop::render(unsigned long)` that is missing from the sources. The committed
state is copied into the scratch buffer, every renderer of the list is invoked on it in
list order, scratch and committed state are swapped; the result is the "continue" signal. -/
def render (loop : RenderLoop) (nanosec : Nat) : RenderLoop × Bool :=
  let scratch : RenderTarget := loop.m_state
  let scratch := loop.m_renderers.foldl (fun target renderer => renderer nanosec target) scratch
  ({ loop with m_state := scratch, m_buffer := loop.m_state }, true)

end RenderLoop

/-- A renderer that assigns the colour `c` to key `(0, 0)`: `target.get(0, 0) = c`. -/
def keyWriter (c : RGBAColor) : Renderer :=
  fun _ target => target.write (target.get 0 0) c

/-- Red at full alpha. -/
def solidRed : RGBAColor := ⟨255, 0, 0, 255⟩

/-- Blue at full alpha. -/
def solidBlue : RGBAColor := ⟨0, 0, 255, 255⟩

/-! ## The position of a key in `computePhases` (wave.cxx lines 110-118)

The type of the coordinates is declared in a header that is not available; line 113 divides
by `2u`, so the arithmetic is unsigned. Its width in bits is the parameter `bits`. The two
conversions `float(...)` and the division are taken as exact rationals. -/

/-- Value of an unsigned expression of `bits` bits. -/
def wrapUnsigned (bits n : Nat) : Nat := n % 2 ^ bits

/-- Unsigned difference `a - b` of `bits` bits. -/
def subUnsigned (bits a b : Nat) : Nat := wrapUnsigned bits (a + 2 ^ bits - wrapUnsigned bits b)

/-- Line 113: `auto x = (key.position.x0 + key.position.x1) / 2u`. -/
def keyPhase_x (bits : Nat) (key : Key) : Nat :=
  wrapUnsigned bits (key.position.x0 + key.position.x1) / 2

/-- Line 114: `auto y = (key.position.y0 + key.position.y1) / 2u`. -/
def keyPhase_y (bits : Nat) (key : Key) : Nat :=
  wrapUnsigned bits (key.position.y0 + key.position.y1) / 2

/-- Line 117: `auto xpos = float(x - bounds.x0) / float(bounds.x1 - bounds.x0)`. -/
def keyPhase_xpos (bits : Nat) (bounds : Rect) (key : Key) : ℚ :=
  (subUnsigned bits (keyPhase_x bits key) bounds.x0 : ℚ)
    / (subUnsigned bits bounds.x1 bounds.x0 : ℚ)

/-- Line 118: `auto ypos = 1.0f - float(y - bounds.x0) / float(bounds.x1 - bounds.x0)`. -/
def keyPhase_ypos (bits : Nat) (bounds : Rect) (key : Key) : ℚ :=
  1 - (subUnsigned bits (keyPhase_y bits key) bounds.x0 : ℚ)
    / (subUnsigned bits bounds.x1 bounds.x0 : ℚ)

/-- Outside the cells of its painted keys the private buffer of an effect holds the
transparent colour. -/
def BufferClear (e : WaveEffect) : Prop :=
  ∀ i, (∀ key ∈ e.paintedKeys, key.index ≠ i) → i < e.m_buffer.m_colors.length →
    e.m_buffer.m_colors[i]? = some transparent

/-! ## Concrete inputs used in the examples -/

/-- A service with one key, a valid layout and the smallest period `create` accepts. -/
def stallService : EffectService :=
  { keyDB := { keys := [⟨0, ⟨0, 0, 10, 10⟩⟩], bounds := ⟨0, 0, 10, 10⟩ }
    period := some 1000
    group := none
    length := none
    direction := none
    colors := some [solidRed]
    createRenderTarget := RenderTarget.create [1] }

/-- A service with two keys of which the group holds the first. -/
def groupService : EffectService :=
  { keyDB := { keys := [⟨0, ⟨0, 0, 5, 10⟩⟩, ⟨1, ⟨5, 0, 10, 10⟩⟩], bounds := ⟨0, 0, 10, 10⟩ }
    period := some 2000
    group := some [⟨0, ⟨0, 0, 5, 10⟩⟩]
    length := none
    direction := none
    colors := some [solidRed, solidBlue]
    createRenderTarget := RenderTarget.create [2] }

/-- A target of two cells that earlier renderers have painted. -/
def paintedTarget : RenderTarget :=
  { m_colors := [solidBlue, solidRed], m_blocks := [0] }

/-- Bounds of a layout that is taller than wide. -/
def tallBounds : Rect := ⟨0, 0, 10, 20⟩

/-- A key in the lower half of `tallBounds`; its centre is `(5, 15)`. -/
def lowKey : Key := ⟨0, ⟨4, 14, 6, 16⟩⟩

/-- A key whose centre `(5, 20)` lies on the bottom edge of `tallBounds`. -/
def bottomKey : Key := ⟨1, ⟨4, 20, 6, 20⟩⟩

/-- A key whose centre `(5, 0)` lies on the top edge of `tallBounds`. -/
def topKey : Key := ⟨2, ⟨4, 0, 6, 0⟩⟩

/-- Float operations that give every key phase 0 and never mix colours. -/
def plainOps : FloatOps :=
  { keyPhase := fun _ _ _ _ => 0
    interpolate := fun a _ _ _ => a }

/-- The service `stallService` with a period of `2^62 + 1` ms configured. -/
def longService : EffectService := { stallService with period := some (2 ^ 62 + 1) }

/-- The effect built for `longService`, after one `render` with `2^62` ms elapsed. -/
def longEffect : WaveEffect :=
  ((WaveEffect.new plainOps longService (2 ^ 62 + 1)).render (2 ^ 62) (RenderTarget.create [1])).1

end keyleds

/-! # Theorems -/

namespace keyleds

/-! ## The cycle counter of `WaveEffect::render` -/

theorem render_m_time (e : WaveEffect) (elapsed : Int) (target : RenderTarget) :
    (e.render elapsed target).1.m_time = WaveEffect.nextTime e.m_period e.m_time elapsed := by
  simp [WaveEffect.render]

theorem render_m_period (e : WaveEffect) (elapsed : Int) (target : RenderTarget) :
    (e.render elapsed target).1.m_period = e.m_period := by
  simp [WaveEffect.render]

theorem render_m_keys (e : WaveEffect) (elapsed : Int) (target : RenderTarget) :
    (e.render elapsed target).1.m_keys = e.m_keys := by
  simp [WaveEffect.render]

theorem renderCalls_m_period (calls : List (Int × RenderTarget)) (e : WaveEffect) :
    (e.renderCalls calls).m_period = e.m_period := by
  induction calls generalizing e with
  | nil => rfl
  | cons call rest ih =>
    have h := ih (e.render call.1 call.2).1
    rw [render_m_period] at h
    simpa [WaveEffect.renderCalls] using h

theorem renderCalls_m_keys (calls : List (Int × RenderTarget)) (e : WaveEffect) :
    (e.renderCalls calls).m_keys = e.m_keys := by
  induction calls generalizing e with
  | nil => rfl
  | cons call rest ih =>
    have h := ih (e.render call.1 call.2).1
    rw [render_m_keys] at h
    simpa [WaveEffect.renderCalls] using h

/-- C1 (the code at the failing input): an effect that `create` accepts with the period of
1000 ms, rendered once after a stall of 2000 ms, is left with `m_time = 1000`, which is not
below its period; line 78 then gives `t = 1024` and, for a key of phase 0, `tphi = 1024`,
one past the last entry of the 1024-entry colour table. -/
theorem C1_stall_leaves_counter_out_of_range :
    ∃ e, WaveEffect.create plainOps stallService = some e ∧
      e.m_period = 1000 ∧ 0 ≤ e.m_time ∧ e.m_time < e.m_period ∧
      (e.render 2000 (RenderTarget.create [1])).1.m_time = 1000 ∧
      ¬ ((e.render 2000 (RenderTarget.create [1])).1.m_time < e.m_period) ∧
      WaveEffect.tableTime e.m_period (e.render 2000 (RenderTarget.create [1])).1.m_time = 1024 ∧
      WaveEffect.tphi 1024 0 = 1024 := by
  refine ⟨WaveEffect.new plainOps stallService 1000, by simp [WaveEffect.create, stallService], rfl, by decide, by decide, ?_, ?_, ?_, ?_⟩
  · rw [render_m_time]; decide
  · rw [render_m_time]; decide
  · rw [render_m_time]; decide
  · decide

theorem wrapInt64_of_fits (n : Int) (hlo : -2 ^ 63 ≤ n) (hhi : n < 2 ^ 63) : wrapInt64 n = n := by
  unfold wrapInt64
  omega

/-- C8 (as stated, at period `2^62 + 1` ms): the effect `create` builds for that period has
`m_time = 2^62` after a first `render` of `2^62` ms; a second `render` of `2^62` ms meets every
condition of the claim (`m_time + elapsed = 2^63 < 2 * m_period`), but the 64-bit sum is
`-2^63`, which is not at or above the period, so the counter is left at `-2^63` instead of
`(m_time + elapsed) mod m_period = 2^62 - 1`. -/
theorem C8_sum_overflows_for_a_long_period :
    WaveEffect.create plainOps longService
      = some (WaveEffect.new plainOps longService (2 ^ 62 + 1)) ∧
    longEffect.m_period = 2 ^ 62 + 1 ∧ longEffect.m_time = 2 ^ 62 ∧
    0 < longEffect.m_period ∧ 0 ≤ longEffect.m_time ∧ longEffect.m_time < longEffect.m_period ∧
    longEffect.m_time + 2 ^ 62 < 2 * longEffect.m_period ∧
    (longEffect.render (2 ^ 62) (RenderTarget.create [1])).1.m_time = -2 ^ 63 ∧
    (longEffect.m_time + 2 ^ 62) % longEffect.m_period = 2 ^ 62 - 1 ∧
    (longEffect.render (2 ^ 62) (RenderTarget.create [1])).1.m_time
      ≠ (longEffect.m_time + 2 ^ 62) % longEffect.m_period := by
  have hP : longEffect.m_period = 2 ^ 62 + 1 := by
    unfold longEffect
    rw [render_m_period]
    rfl
  have hm : longEffect.m_time = 2 ^ 62 := by
    unfold longEffect
    rw [render_m_time]
    decide
  have hr : (longEffect.render (2 ^ 62) (RenderTarget.create [1])).1.m_time = -2 ^ 63 := by
    rw [render_m_time, hP, hm]
    decide
  refine ⟨by simp [WaveEffect.create, longService, stallService], hP, hm, ?_, ?_, ?_, ?_, hr,
    ?_, ?_⟩
  · rw [hP]; decide
  · rw [hm]; decide
  · rw [hP, hm]; decide
  · rw [hP, hm]; decide
  · rw [hP, hm]; decide
  · rw [hr, hP, hm]; decide

/-- C8 (amended): when one period suffices (`m_time + elapsed < 2 * m_period`, in particular
for every `elapsed ≤ m_period`) and the sum `m_time + elapsed` fits in 64 bits (it does for
every period up to `2^62` ms), the counter `render` leaves is
`(m_time + elapsed) mod m_period`. -/
theorem C8_single_subtraction_is_modulo (e : WaveEffect) (elapsed : Int) (target : RenderTarget)
    (_hP : 0 < e.m_period) (h0 : 0 ≤ e.m_time) (_hlt : e.m_time < e.m_period)
    (hel : 0 ≤ elapsed) (hone : e.m_time + elapsed < 2 * e.m_period)
    (hfit : e.m_time + elapsed < 2 ^ 63) :
    (e.render elapsed target).1.m_time = (e.m_time + elapsed) % e.m_period := by
  rw [render_m_time]
  unfold WaveEffect.nextTime
  rw [wrapInt64_of_fits (e.m_time + elapsed) (by omega) hfit]
  by_cases h : e.m_time + elapsed ≥ e.m_period
  · simp only [h, if_true]
    rw [wrapInt64_of_fits _ (by omega) (by omega)]
    have h1 : (e.m_time + elapsed) = (e.m_time + elapsed - e.m_period) + 1 * e.m_period := by ring
    rw [h1, Int.add_mul_emod_self, Int.emod_eq_of_lt (by omega) (by omega)]
    ring
  · simp only [h, if_false]
    rw [Int.emod_eq_of_lt (by omega) (by omega)]

/-- C8 at the smallest period, one full period after construction: the counter wraps to 0. -/
theorem C8_single_subtraction_is_modulo_witness :
    (WaveEffect.new plainOps stallService 1000).m_time + 1000 < 2 * 1000 ∧
    (WaveEffect.new plainOps stallService 1000).m_time + 1000 < 2 ^ 63 ∧
    ((WaveEffect.new plainOps stallService 1000).render 1000 (RenderTarget.create [1])).1.m_time
      = ((WaveEffect.new plainOps stallService 1000).m_time + 1000) % 1000 :=
  ⟨by decide, by decide, C8_single_subtraction_is_modulo
    (WaveEffect.new plainOps stallService 1000) 1000
    (RenderTarget.create [1]) (by decide) (by decide) (by decide) (by decide) (by decide)
    (by decide)⟩

/-! ## The index into the colour table -/

theorem tableTime_eq_floor (P m : Int) (hP : 0 < P) (h0 : 0 ≤ m) (hfit : 1024 * m < 2 ^ 63) :
    WaveEffect.tableTime P m = (1024 * m) / P := by
  have hacc : (accuracy : Int) = 1024 := rfl
  unfold WaveEffect.tableTime
  rw [hacc, wrapInt64_of_fits (1024 * m) (by omega) hfit,
    Int.tdiv_eq_ediv (by omega) (by omega)]

theorem tableTime_range (P m : Int) (hP : 0 < P) (h0 : 0 ≤ m) (hlt : m < P)
    (hfit : 1024 * m < 2 ^ 63) :
    0 ≤ WaveEffect.tableTime P m ∧ WaveEffect.tableTime P m < 1024 := by
  rw [tableTime_eq_floor P m hP h0 hfit]
  constructor
  · exact Int.ediv_nonneg (by omega) (by omega)
  · apply Int.ediv_lt_of_lt_mul hP
    nlinarith

theorem colorAt_in_range (table : List RGBAColor) (i : Int) (h0 : 0 ≤ i)
    (hlt : i < (table.length : Int)) : table[i.toNat]? = some (WaveEffect.colorAt table i) := by
  cases i with
  | ofNat n =>
    have hn : n < table.length := by
      have : ((n : Int)) < (table.length : Int) := hlt
      omega
    simp [WaveEffect.colorAt, List.getD_eq_getElem?_getD, List.getElem?_eq_getElem hn]
  | negSucc n => exact absurd h0 (by simp [Int.negSucc_lt_zero])

/-- C9 (as stated, at period `3 * 2^53` ms and counter `2^53 + 1`): the period is positive and
the counter lies below it, but the 64-bit product `accuracy * m_time` is `1024 - 2^63`, so
line 78 gives `t = -341`, not `floor(1024 * m_time / P) = 341` and not in `[0, 1024)`; for a
key of phase 0 the index is `tphi = 683`, not `(341 - 0) mod 1024`, and for a key of phase
700 it is `tphi = -17`, outside the table. -/
theorem C9_product_overflows_for_a_long_period :
    (0 : Int) < 3 * 2 ^ 53 ∧ (0 : Int) ≤ 2 ^ 53 + 1 ∧ (2 ^ 53 + 1 : Int) < 3 * 2 ^ 53 ∧
    700 ≤ 1024 ∧
    wrapInt64 ((accuracy : Int) * (2 ^ 53 + 1)) = 1024 - 2 ^ 63 ∧
    WaveEffect.tableTime (3 * 2 ^ 53) (2 ^ 53 + 1) = -341 ∧
    (1024 * (2 ^ 53 + 1) : Int) / (3 * 2 ^ 53) = 341 ∧
    ¬ (0 ≤ WaveEffect.tableTime (3 * 2 ^ 53) (2 ^ 53 + 1)) ∧
    WaveEffect.tphi (WaveEffect.tableTime (3 * 2 ^ 53) (2 ^ 53 + 1)) 0 = 683 ∧
    WaveEffect.tphi (WaveEffect.tableTime (3 * 2 ^ 53) (2 ^ 53 + 1)) 700 = -17 ∧
    ¬ (0 ≤ WaveEffect.tphi (WaveEffect.tableTime (3 * 2 ^ 53) (2 ^ 53 + 1)) 700) := by
  have ht : WaveEffect.tableTime (3 * 2 ^ 53) (2 ^ 53 + 1) = -341 := by decide
  refine ⟨by decide, by decide, by decide, by decide, by decide, ht, by decide, ?_, ?_, ?_, ?_⟩
  · rw [ht]; decide
  · rw [ht]; decide
  · rw [ht]; decide
  · rw [ht]; decide

/-- C9 (amended): for a period `P > 0`, a counter `0 ≤ m_time < P` whose product
`1024 * m_time` fits in 64 bits (it does for every period up to `2^53` ms) and a phase
`0 ≤ phase ≤ 1024`, the value `t` of line 78 is `floor(1024 * m_time / P)` and lies in
`[0, 1024)`; the index `tphi` of lines 83 and 91 lies in `[0, 1024)`, equals
`(t - phase) mod 1024`, its subtraction never goes below zero, and `m_colors[tphi]` is an
entry of any table of 1024 entries. -/
theorem C9_table_index_in_bounds (P m_time : Int) (phase : Nat) (hP : 0 < P) (h0 : 0 ≤ m_time)
    (hlt : m_time < P) (hphase : phase ≤ 1024) (hfit : 1024 * m_time < 2 ^ 63) :
    WaveEffect.tableTime P m_time = (1024 * m_time) / P ∧
    0 ≤ WaveEffect.tableTime P m_time ∧ WaveEffect.tableTime P m_time < 1024 ∧
    (phase : Int) ≤ (if WaveEffect.tableTime P m_time ≥ (phase : Int) then (0 : Int)
      else (accuracy : Int)) + WaveEffect.tableTime P m_time ∧
    0 ≤ WaveEffect.tphi (WaveEffect.tableTime P m_time) phase ∧
    WaveEffect.tphi (WaveEffect.tableTime P m_time) phase < 1024 ∧
    WaveEffect.tphi (WaveEffect.tableTime P m_time) phase
      = (WaveEffect.tableTime P m_time - (phase : Int)) % 1024 ∧
    (∀ m_colors : List RGBAColor, m_colors.length = 1024 →
      m_colors[(WaveEffect.tphi (WaveEffect.tableTime P m_time) phase).toNat]?
        = some (WaveEffect.colorAt m_colors
            (WaveEffect.tphi (WaveEffect.tableTime P m_time) phase))) := by
  obtain ⟨ht0, ht1⟩ := tableTime_range P m_time hP h0 hlt hfit
  have hfloor := tableTime_eq_floor P m_time hP h0 hfit
  generalize WaveEffect.tableTime P m_time = t at *
  have hacc : (accuracy : Int) = 1024 := rfl
  have hidx : 0 ≤ WaveEffect.tphi t phase ∧ WaveEffect.tphi t phase < 1024 := by
    unfold WaveEffect.tphi
    rw [hacc]
    split <;> omega
  refine ⟨hfloor, ht0, ht1, ?_, hidx.1, hidx.2, ?_, ?_⟩
  · rw [hacc]; split <;> omega
  · unfold WaveEffect.tphi
    rw [hacc]
    split <;> omega
  · intro m_colors hlen
    exact colorAt_in_range m_colors _ hidx.1 (by rw [hlen]; exact_mod_cast hidx.2)

/-- C9 at period 1000, counter 999 and the largest phase 1024. -/
theorem C9_table_index_in_bounds_witness :
    (1024 * 999 : Int) < 2 ^ 63 ∧
    WaveEffect.tableTime 1000 999 = 1022 ∧ WaveEffect.tphi (WaveEffect.tableTime 1000 999) 1024
      = (WaveEffect.tableTime 1000 999 - ((1024 : Nat) : Int)) % 1024 :=
  ⟨by decide, by decide, (C9_table_index_in_bounds 1000 999 1024 (by decide) (by decide)
    (by decide) (by decide) (by decide)).2.2.2.2.2.2.1⟩

/-! ## Construction -/

/-- C7: `create` returns no effect exactly when the bounds of the layout are not valid or a
period below 1000 ms is configured; with a valid layout and no period option the effect is
built with 10 000 ms; every effect it builds has a period of at least 1000 ms, hence not
zero, and keeps that period through every later `render`. -/
theorem C7_create_fails_exactly_on_configuration_error (fl : FloatOps) (service : EffectService) :
    (WaveEffect.create fl service = none ↔
      (¬ (service.keyDB.bounds.x0 < service.keyDB.bounds.x1 ∧
          service.keyDB.bounds.y0 < service.keyDB.bounds.y1) ∨
        ∃ p, service.period = some p ∧ p < 1000)) ∧
    (service.period = none →
      (service.keyDB.bounds.x0 < service.keyDB.bounds.x1 ∧
        service.keyDB.bounds.y0 < service.keyDB.bounds.y1) →
      WaveEffect.create fl service = some (WaveEffect.new fl service 10000)) ∧
    (∀ e, WaveEffect.create fl service = some e →
      e = WaveEffect.new fl service (service.period.getD 10000) ∧
      e.m_period = service.period.getD 10000 ∧ 1000 ≤ e.m_period ∧ e.m_period ≠ 0 ∧
      ∀ calls, 1000 ≤ (e.renderCalls calls).m_period) := by
  refine ⟨?_, ?_, ?_⟩
  · unfold WaveEffect.create
    cases hp : service.period with
    | none => simp
    | some p =>
      by_cases hb : service.keyDB.bounds.x0 < service.keyDB.bounds.x1 ∧
          service.keyDB.bounds.y0 < service.keyDB.bounds.y1
      · by_cases hlt : p < 1000 <;> simp [hb, hlt]
      · simp [hb]
  · intro hp hb
    simp [WaveEffect.create, hp, hb]
  · intro e he
    unfold WaveEffect.create at he
    by_cases hb : service.keyDB.bounds.x0 < service.keyDB.bounds.x1 ∧
        service.keyDB.bounds.y0 < service.keyDB.bounds.y1
    · by_cases hlt : service.period.getD 10000 < 1000
      · simp [hb, hlt] at he
      · simp only [hb, not_true_eq_false, if_false, hlt] at he
        have he2 : e = WaveEffect.new fl service (service.period.getD 10000) :=
          (Option.some.inj he).symm
        have hper : e.m_period = service.period.getD 10000 := by rw [he2]; rfl
        refine ⟨he2, hper, by omega, by omega, ?_⟩
        intro calls
        rw [renderCalls_m_period]
        omega
    · simp [hb] at he

/-! ## What `render` writes -/

theorem paint_length (m_colors : List RGBAColor) (m_phases : List Nat) (t : Int)
    (keys : List Key) (idx : Nat) (m_buffer : RenderTarget) :
    (WaveEffect.paint m_colors m_phases t idx keys m_buffer).m_colors.length
      = m_buffer.m_colors.length := by
  induction keys generalizing idx m_buffer with
  | nil => rfl
  | cons key rest ih =>
    rw [WaveEffect.paint, ih]
    simp [RenderTarget.write]

theorem paint_untouched (m_colors : List RGBAColor) (m_phases : List Nat) (t : Int)
    (keys : List Key) (idx : Nat) (m_buffer : RenderTarget) (i : Nat)
    (hi : ∀ key ∈ keys, key.index ≠ i) :
    (WaveEffect.paint m_colors m_phases t idx keys m_buffer).m_colors[i]?
      = m_buffer.m_colors[i]? := by
  induction keys generalizing idx m_buffer with
  | nil => rfl
  | cons key rest ih =>
    rw [WaveEffect.paint, ih _ _ (fun k hk => hi k (List.mem_cons_of_mem _ hk))]
    simp only [RenderTarget.write]
    exact List.getElem?_set_ne (hi key (List.mem_cons_self _ _))

theorem paint_at (m_colors : List RGBAColor) (m_phases : List Nat) (t : Int)
    (keys : List Key) (idx : Nat) (m_buffer : RenderTarget) (j : Nat) (key : Key)
    (hkey : keys[j]? = some key) (hbuf : key.index < m_buffer.m_colors.length)
    (hlater : ∀ j2 key2, j < j2 → keys[j2]? = some key2 → key2.index ≠ key.index) :
    (WaveEffect.paint m_colors m_phases t idx keys m_buffer).m_colors[key.index]?
      = some (WaveEffect.colorAt m_colors (WaveEffect.tphi t (m_phases.getD (idx + j) 0))) := by
  induction keys generalizing idx m_buffer j with
  | nil => simp at hkey
  | cons k rest ih =>
    rw [WaveEffect.paint]
    cases j with
    | zero =>
      have hk : k = key := by simpa using hkey
      subst hk
      rw [paint_untouched]
      · simp only [RenderTarget.write, Nat.add_zero]
        exact List.getElem?_set_self hbuf
      · intro key2 hmem
        obtain ⟨n, hn⟩ := List.getElem?_of_mem hmem
        exact hlater (n + 1) key2 (Nat.succ_pos n) (by simpa using hn)
    | succ j =>
      have h := ih (idx + 1) (m_buffer.write k.index
        (WaveEffect.colorAt m_colors (WaveEffect.tphi t (m_phases.getD idx 0)))) j
        (by simpa using hkey) (by simpa [RenderTarget.write] using hbuf)
        (fun j2 key2 hlt h2 => hlater (j2 + 1) key2 (by omega) (by simpa using h2))
      rw [h]
      congr 4
      omega

theorem render_target_eq (e : WaveEffect) (elapsed : Int) (target : RenderTarget) :
    (e.render elapsed target).2 = blend target (e.render elapsed target).1.m_buffer := by
  simp [WaveEffect.render]

theorem render_m_buffer (e : WaveEffect) (elapsed : Int) (target : RenderTarget) :
    (e.render elapsed target).1.m_buffer
      = WaveEffect.paint e.m_colors e.m_phases
          (WaveEffect.tableTime e.m_period (WaveEffect.nextTime e.m_period e.m_time elapsed))
          0 e.paintedKeys e.m_buffer := by
  unfold WaveEffect.render WaveEffect.paintedKeys
  cases e.m_keys <;> rfl

theorem render_m_buffer_length (e : WaveEffect) (elapsed : Int) (target : RenderTarget) :
    (e.render elapsed target).1.m_buffer.m_colors.length = e.m_buffer.m_colors.length := by
  rw [render_m_buffer, paint_length]

theorem renderCalls_m_buffer_length (calls : List (Int × RenderTarget)) (e : WaveEffect) :
    (e.renderCalls calls).m_buffer.m_colors.length = e.m_buffer.m_colors.length := by
  induction calls generalizing e with
  | nil => rfl
  | cons call rest ih =>
    have h := ih (e.render call.1 call.2).1
    rw [render_m_buffer_length] at h
    simpa [WaveEffect.renderCalls] using h

theorem blend_getElem? (target source : RenderTarget) (i : Nat) (d s : RGBAColor)
    (hd : target.m_colors[i]? = some d) (hs : source.m_colors[i]? = some s) :
    (blend target source).m_colors[i]? = some (blendCell d s) := by
  simp [blend, List.getElem?_zipWith, hd, hs]

theorem blendCell_transparent (D : RGBAColor) : blendCell D transparent = D := by
  simp [blendCell, transparent]

theorem blendCell_full_alpha (D S : RGBAColor) (h : S.alpha = channelMax) : blendCell D S = S := by
  simp [blendCell, h, channelMax]

theorem fill_m_colors (rt : RenderTarget) (c : RGBAColor) :
    (rt.fill c).m_colors = List.replicate rt.m_colors.length c := by
  simp [RenderTarget.fill, RenderTarget.m_nbColors]

theorem bufferClear_new (fl : FloatOps) (service : EffectService) (period : Int) :
    BufferClear (WaveEffect.new fl service period) := by
  intro i _ hi
  have hlen : i < service.createRenderTarget.m_colors.length := by
    simpa [WaveEffect.new, fill_m_colors] using hi
  simp [WaveEffect.new, fill_m_colors, List.getElem?_replicate, hlen]

theorem paintedKeys_render (e : WaveEffect) (elapsed : Int) (target : RenderTarget) :
    (e.render elapsed target).1.paintedKeys = e.paintedKeys := by
  simp [WaveEffect.render, WaveEffect.paintedKeys]

theorem bufferClear_render (e : WaveEffect) (elapsed : Int) (target : RenderTarget)
    (h : BufferClear e) : BufferClear (e.render elapsed target).1 := by
  intro i hkeys hi
  rw [paintedKeys_render] at hkeys
  rw [render_m_buffer_length] at hi
  rw [render_m_buffer, paint_untouched _ _ _ _ _ _ _ hkeys]
  exact h i hkeys hi

theorem bufferClear_renderCalls (calls : List (Int × RenderTarget)) (e : WaveEffect)
    (h : BufferClear e) : BufferClear (e.renderCalls calls) := by
  induction calls generalizing e with
  | nil => exact h
  | cons call rest ih =>
    have h2 := ih (e.render call.1 call.2).1 (bufferClear_render e call.1 call.2 h)
    simpa [WaveEffect.renderCalls] using h2

theorem paintedKeys_renderCalls (calls : List (Int × RenderTarget)) (e : WaveEffect) :
    (e.renderCalls calls).paintedKeys = e.paintedKeys := by
  unfold WaveEffect.paintedKeys
  rw [renderCalls_m_keys]
  have hs : (e.renderCalls calls).m_service = e.m_service := by
    induction calls generalizing e with
    | nil => rfl
    | cons call rest ih =>
      have h := ih (e.render call.1 call.2).1
      simpa [WaveEffect.renderCalls, WaveEffect.render] using h
  rw [hs]

/-- C2: for an effect configured with a key group, whose private buffer was filled with the
transparent colour by the constructor, after any sequence of `render` calls a further
`render` leaves every cell of its target that is not the cell of a key of the group equal to
what it was before the call; the private buffer is still transparent there. -/
theorem C2_render_leaves_other_cells (fl : FloatOps) (service : EffectService) (period : Int)
    (group : List Key) (hgroup : service.group = some group)
    (calls : List (Int × RenderTarget)) (elapsed : Int) (target : RenderTarget)
    (hsize : target.size = service.createRenderTarget.size)
    (i : Nat) (hi : ∀ key ∈ group, key.index ≠ i) :
    ((((WaveEffect.new fl service period).renderCalls calls).render elapsed target).2).m_colors[i]?
      = target.m_colors[i]? ∧
    (i < target.size →
      ((((WaveEffect.new fl service period).renderCalls calls).render elapsed target).1).m_buffer.m_colors[i]?
        = some transparent) := by
  have hclear : BufferClear
      ((((WaveEffect.new fl service period).renderCalls calls).render elapsed target).1) :=
    bufferClear_render _ _ _ (bufferClear_renderCalls calls _ (bufferClear_new fl service period))
  have hkeys : ((((WaveEffect.new fl service period).renderCalls calls).render elapsed
      target).1).paintedKeys = group := by
    rw [paintedKeys_render, paintedKeys_renderCalls]
    simp [WaveEffect.paintedKeys, WaveEffect.new, hgroup]
  have hlen : ((((WaveEffect.new fl service period).renderCalls calls).render elapsed
      target).1).m_buffer.m_colors.length = target.m_colors.length := by
    rw [render_m_buffer_length, renderCalls_m_buffer_length]
    simp only [WaveEffect.new, fill_m_colors, List.length_replicate]
    exact hsize.symm
  rw [render_target_eq]
  generalize (((WaveEffect.new fl service period).renderCalls calls).render elapsed target).1
    = e2 at hclear hkeys hlen ⊢
  by_cases hlt : i < target.m_colors.length
  · have hsrc := hclear i (by rw [hkeys]; exact hi) (by rw [hlen]; exact hlt)
    refine ⟨?_, fun _ => hsrc⟩
    rw [blend_getElem? target e2.m_buffer i _ _ (List.getElem?_eq_getElem hlt) hsrc,
      blendCell_transparent, List.getElem?_eq_getElem hlt]
  · refine ⟨?_, fun h => absurd h hlt⟩
    have hnone : target.m_colors[i]? = none := List.getElem?_eq_none (by omega)
    simp [blend, List.getElem?_zipWith, hnone]

/-- C3: a key painted by `render` (the key at place `idx` of the group, or of the key
database when there is no group) whose selected entry `m_colors[tphi]` has the maximal alpha
255 ends with exactly that entry in its cell of the target, whatever the cell held, provided
the reads of `m_phases` and `m_colors` are in range, the cell is a cell of both buffers and
no key painted after it shares the cell. -/
theorem C3_full_alpha_entry_replaces_cell (e : WaveEffect) (elapsed : Int) (target : RenderTarget)
    (idx : Nat) (key : Key) (phase : Nat) (entry : RGBAColor)
    (hkey : e.paintedKeys[idx]? = some key)
    (hphase : e.m_phases[idx]? = some phase)
    (hnonneg : 0 ≤ e.renderTphi elapsed phase)
    (hentry : e.m_colors[(e.renderTphi elapsed phase).toNat]? = some entry)
    (halpha : entry.alpha = 255)
    (hcell : key.index < e.m_buffer.size) (hsize : target.size = e.m_buffer.size)
    (hlater : ∀ j key2, idx < j → e.paintedKeys[j]? = some key2 → key2.index ≠ key.index) :
    (e.render elapsed target).2.m_colors[key.index]? = some entry := by
  have hpaint := paint_at e.m_colors e.m_phases
    (WaveEffect.tableTime e.m_period (WaveEffect.nextTime e.m_period e.m_time elapsed))
    e.paintedKeys 0 e.m_buffer idx key hkey hcell hlater
  have hph : e.m_phases.getD (0 + idx) 0 = phase := by
    simp [List.getD_eq_getElem?_getD, hphase]
  have hcol : WaveEffect.colorAt e.m_colors (e.renderTphi elapsed phase) = entry := by
    have hlt : e.renderTphi elapsed phase < (e.m_colors.length : Int) := by
      have h1 : (e.renderTphi elapsed phase).toNat < e.m_colors.length := by
        by_contra hge
        rw [List.getElem?_eq_none (by omega)] at hentry
        exact absurd hentry (by simp)
      omega
    have h2 := colorAt_in_range e.m_colors _ hnonneg hlt
    rw [hentry] at h2
    exact (Option.some.inj h2).symm
  rw [hph] at hpaint
  change _ = some (WaveEffect.colorAt e.m_colors (e.renderTphi elapsed phase)) at hpaint
  rw [hcol] at hpaint
  have htgt : key.index < target.m_colors.length := by
    have : target.m_colors.length = e.m_buffer.m_colors.length := hsize
    rw [this]; exact hcell
  rw [render_target_eq, render_m_buffer,
    blend_getElem? target _ key.index _ entry (List.getElem?_eq_getElem htgt) hpaint,
    blendCell_full_alpha _ _ (by rw [halpha]; rfl)]

/-! ## The colour table -/

theorem rangeBound_zero (n : Nat) : rangeBound n 0 = 0 := by
  simp [rangeBound]

theorem rangeBound_self (n : Nat) (hn : 0 < n) : rangeBound n n = 1024 := by
  unfold rangeBound accuracy
  exact Nat.mul_div_right 1024 hn

theorem rangeBound_mono (n : Nat) {a b : Nat} (h : a ≤ b) : rangeBound n a ≤ rangeBound n b := by
  unfold rangeBound
  exact Nat.div_le_div_right (Nat.mul_le_mul_right _ h)

theorem flatMap_consecutive_ranges (f : Nat → Nat) (hf : ∀ a b, a ≤ b → f a ≤ f b) (k : Nat) :
    (List.range k).flatMap (fun r => List.range' (f r) (f (r + 1) - f r))
      = List.range' (f 0) (f k - f 0) := by
  induction k with
  | zero => simp
  | succ k ih =>
    rw [List.range_succ, List.flatMap_append, ih]
    simp only [List.flatMap_cons, List.flatMap_nil, List.append_nil]
    have h1 : f 0 ≤ f k := hf 0 k (Nat.zero_le k)
    have h2 : f k ≤ f (k + 1) := hf k (k + 1) (Nat.le_succ k)
    have h3 : f k = f 0 + 1 * (f k - f 0) := by omega
    have h4 : f (k + 1) - f 0 = (f (k + 1) - f k) + (f k - f 0) := by omega
    rw [h4, ← List.range'_append]
    congr 2

theorem tableWrites_indices (fl : FloatOps) (colors : List RGBAColor) :
    (tableWrites fl colors).map Prod.fst
      = List.range' 0 (rangeBound colors.length colors.length) := by
  have h := flatMap_consecutive_ranges (rangeBound colors.length)
    (fun a b hab => rangeBound_mono colors.length hab) colors.length
  rw [rangeBound_zero, Nat.sub_zero] at h
  rw [← h]
  unfold tableWrites
  rw [List.map_flatMap]
  congr 1
  funext r
  simp [List.map_map, Function.comp_def]

theorem foldl_set_length (ws : List (Nat × RGBAColor)) (table : List RGBAColor) :
    (ws.foldl (fun table w => table.set w.1 w.2) table).length = table.length := by
  induction ws generalizing table with
  | nil => rfl
  | cons w rest ih => simp [List.foldl_cons, ih]

theorem foldl_set_untouched (ws : List (Nat × RGBAColor)) (table : List RGBAColor) (i : Nat)
    (hi : i ∉ ws.map Prod.fst) :
    (ws.foldl (fun table w => table.set w.1 w.2) table)[i]? = table[i]? := by
  induction ws generalizing table with
  | nil => rfl
  | cons w rest ih =>
    simp only [List.map_cons, List.mem_cons, not_or] at hi
    rw [List.foldl_cons, ih _ hi.2]
    exact List.getElem?_set_ne (fun h => hi.1 h.symm)

theorem foldl_set_written (ws : List (Nat × RGBAColor)) (table : List RGBAColor) (i : Nat)
    (c : RGBAColor) (hnodup : (ws.map Prod.fst).Nodup) (hmem : (i, c) ∈ ws)
    (hi : i < table.length) :
    (ws.foldl (fun table w => table.set w.1 w.2) table)[i]? = some c := by
  induction ws generalizing table with
  | nil => simp at hmem
  | cons w rest ih =>
    rw [List.map_cons, List.nodup_cons] at hnodup
    rw [List.foldl_cons]
    rcases List.mem_cons.mp hmem with heq | hrest
    · subst heq
      rw [foldl_set_untouched _ _ _ hnodup.1]
      exact List.getElem?_set_self hi
    · exact ih _ hnodup.2 hrest (by simpa using hi)

theorem generateColorTable_length (fl : FloatOps) (colors : List RGBAColor) :
    (generateColorTable fl colors).length = 1024 := by
  unfold generateColorTable
  rw [foldl_set_length, List.length_replicate]
  rfl

theorem generateColorTable_entry (fl : FloatOps) (colors : List RGBAColor) (r idx : Nat)
    (hr : r < colors.length) (h1 : rangeBound colors.length r ≤ idx)
    (h2 : idx < rangeBound colors.length (r + 1)) :
    (generateColorTable fl colors)[idx]? = some (fl.interpolate (colors.getD r transparent)
      (colors.getD ((r + 1) % colors.length) transparent) (idx - rangeBound colors.length r)
      (rangeBound colors.length (r + 1) - rangeBound colors.length r)) := by
  have hn : 0 < colors.length := by omega
  have hidx : idx < 1024 := by
    have := rangeBound_mono colors.length (show r + 1 ≤ colors.length by omega)
    rw [rangeBound_self _ hn] at this
    omega
  have hwrap : (if r + 1 ≥ colors.length then 0 else r + 1) = (r + 1) % colors.length := by
    split
    · have : r + 1 = colors.length := by omega
      rw [this, Nat.mod_self]
    · rw [Nat.mod_eq_of_lt (by omega)]
  unfold generateColorTable
  apply foldl_set_written
  · rw [tableWrites_indices]
    exact List.nodup_range' _ _
  · unfold tableWrites
    rw [List.mem_flatMap]
    refine ⟨r, List.mem_range.mpr hr, ?_⟩
    simp only [List.mem_map]
    refine ⟨idx, ?_, ?_⟩
    · rw [List.mem_range'_1]
      omega
    · rw [hwrap]
  · rw [List.length_replicate]
    exact hidx

theorem rangeBound_unique (n r r2 idx : Nat) (h1 : rangeBound n r ≤ idx)
    (h2 : idx < rangeBound n (r + 1)) (h3 : rangeBound n r2 ≤ idx)
    (h4 : idx < rangeBound n (r2 + 1)) : r2 = r := by
  rcases Nat.lt_trichotomy r2 r with h | h | h
  · have := rangeBound_mono n (show r2 + 1 ≤ r by omega)
    omega
  · exact h
  · have := rangeBound_mono n (show r + 1 ≤ r2 by omega)
    omega

/-- C10: `generateColorTable` returns 1024 entries. For a list of `n > 0` colours the index
ranges `[floor(r * 1024 / n), floor((r + 1) * 1024 / n))`, `r = 0 .. n - 1`, start at 0, end at
1024 and each ends where the next begins, so the indices written by the loops, in order, are
`0, 1, ..., 1023`, each once; every index lies in the range of exactly one `r`, and its entry is
the interpolation from `colors[r]` towards `colors[(r + 1) mod n]`. For the empty list nothing
is written and every entry is the zero colour. -/
theorem C10_color_table_ranges_partition (fl : FloatOps) (colors : List RGBAColor) :
    (generateColorTable fl colors).length = 1024 ∧
    (colors = [] → tableWrites fl colors = [] ∧
      generateColorTable fl colors = List.replicate 1024 transparent) ∧
    (colors ≠ [] →
      rangeBound colors.length 0 = 0 ∧
      rangeBound colors.length colors.length = 1024 ∧
      (∀ r, rangeBound colors.length r ≤ rangeBound colors.length (r + 1)) ∧
      (tableWrites fl colors).map Prod.fst = List.range 1024 ∧
      ∀ idx, idx < 1024 →
        ∃ r, r < colors.length ∧
          rangeBound colors.length r ≤ idx ∧ idx < rangeBound colors.length (r + 1) ∧
          (∀ r2, rangeBound colors.length r2 ≤ idx → idx < rangeBound colors.length (r2 + 1) →
            r2 = r) ∧
          (generateColorTable fl colors)[idx]? = some (fl.interpolate (colors.getD r transparent)
            (colors.getD ((r + 1) % colors.length) transparent)
            (idx - rangeBound colors.length r)
            (rangeBound colors.length (r + 1) - rangeBound colors.length r))) := by
  refine ⟨generateColorTable_length fl colors, ?_, ?_⟩
  · intro h
    subst h
    exact ⟨rfl, rfl⟩
  · intro hne
    have hn : 0 < colors.length := List.length_pos.mpr hne
    have hidxs : (tableWrites fl colors).map Prod.fst = List.range 1024 := by
      rw [tableWrites_indices, rangeBound_self _ hn, List.range_eq_range']
    refine ⟨rangeBound_zero _, rangeBound_self _ hn,
      fun r => rangeBound_mono _ (Nat.le_succ r), hidxs, ?_⟩
    intro idx hidx
    have hmem : idx ∈ (tableWrites fl colors).map Prod.fst := by
      rw [hidxs]
      exact List.mem_range.mpr hidx
    obtain ⟨w, hw, hw1⟩ := List.mem_map.mp hmem
    unfold tableWrites at hw
    obtain ⟨r, hr, hwr⟩ := List.mem_flatMap.mp hw
    simp only [List.mem_map] at hwr
    obtain ⟨j, hj, hjw⟩ := hwr
    rw [List.mem_range'_1] at hj
    have hji : j = idx := by
      rw [← hw1, ← hjw]
    subst hji
    have hr2 : r < colors.length := List.mem_range.mp hr
    have hb := rangeBound_mono colors.length (Nat.le_succ r)
    have hup : j < rangeBound colors.length (r + 1) := by
      have := hj.2
      omega
    exact ⟨r, hr2, hj.1, hup,
      fun r2 h3 h4 => rangeBound_unique colors.length r r2 j hj.1 hup h3 h4,
      generateColorTable_entry fl colors r j hr2 hj.1 hup⟩

/-! ## Layout of a render target -/

theorem le_alignUp (n : Nat) : n ≤ alignUp n := by
  have h : align_colors = 8 := rfl
  unfold alignUp
  rw [h]
  omega

theorem layoutEnd_eq (sizes : List Nat) (cur : Nat) :
    layoutEnd cur sizes = cur + sizes.sum + interBlockPadding cur sizes := by
  induction sizes generalizing cur with
  | nil => simp [layoutEnd, interBlockPadding]
  | cons size rest ih =>
    cases rest with
    | nil => simp [layoutEnd, interBlockPadding]
    | cons size2 rest2 =>
      have h := le_alignUp (cur + size)
      rw [layoutEnd, interBlockPadding, ih]
      simp only [List.sum_cons]
      omega

theorem blockOffsets_length (sizes : List Nat) (cur : Nat) :
    (blockOffsets cur sizes).length = sizes.length := by
  induction sizes generalizing cur with
  | nil => rfl
  | cons size rest ih => simp [blockOffsets, ih]

theorem blockOffsets_ge (sizes : List Nat) (cur b : Nat) (hb : b < sizes.length) :
    cur ≤ (blockOffsets cur sizes).getD b 0 := by
  induction sizes generalizing cur b with
  | nil => simp at hb
  | cons size rest ih =>
    cases b with
    | zero => simp [blockOffsets]
    | succ b =>
      have h := ih (alignUp (cur + size)) b (by simpa using hb)
      have h2 := le_alignUp (cur + size)
      simp only [blockOffsets, List.getD_cons_succ]
      omega

theorem blockOffsets_separated (sizes : List Nat) (cur b b2 : Nat) (hlt : b < b2)
    (hb2 : b2 < sizes.length) :
    (blockOffsets cur sizes).getD b 0 + sizes.getD b 0 ≤ (blockOffsets cur sizes).getD b2 0 := by
  induction sizes generalizing cur b b2 with
  | nil => simp at hb2
  | cons size rest ih =>
    cases b2 with
    | zero => omega
    | succ b2 =>
      have hb2r : b2 < rest.length := by simpa using hb2
      cases b with
      | zero =>
        have h := blockOffsets_ge rest (alignUp (cur + size)) b2 hb2r
        have h2 := le_alignUp (cur + size)
        simp only [blockOffsets, List.getD_cons_succ, List.getD_cons_zero]
        omega
      | succ b =>
        simp only [blockOffsets, List.getD_cons_succ]
        exact ih (alignUp (cur + size)) b b2 (by omega) hb2r

theorem blockOffsets_in_buffer (sizes : List Nat) (cur b k : Nat) (hb : b < sizes.length)
    (hk : k < sizes.getD b 0) :
    (blockOffsets cur sizes).getD b 0 + k < layoutEnd cur sizes := by
  induction sizes generalizing cur b with
  | nil => simp at hb
  | cons size rest ih =>
    cases rest with
    | nil =>
      have hb0 : b = 0 := by simpa using hb
      subst hb0
      simp only [List.getD_cons_zero] at hk
      simp only [blockOffsets, layoutEnd, List.getD_cons_zero]
      omega
    | cons size2 rest2 =>
      cases b with
      | zero =>
        have h2 := le_alignUp (cur + size)
        have h3 := layoutEnd_eq (size2 :: rest2) (alignUp (cur + size))
        have h4 : layoutEnd cur (size :: size2 :: rest2)
            = layoutEnd (alignUp (cur + size)) (size2 :: rest2) := rfl
        simp only [List.getD_cons_zero] at hk
        rw [h4]
        simp only [blockOffsets, List.getD_cons_zero]
        omega
      | succ b =>
        have h := ih (alignUp (cur + size)) b (by simpa using hb) (by simpa using hk)
        have h4 : layoutEnd cur (size :: size2 :: rest2)
            = layoutEnd (alignUp (cur + size)) (size2 :: rest2) := rfl
        rw [h4]
        simpa only [blockOffsets, List.getD_cons_succ] using h

theorem alignUp_mod (n : Nat) : alignUp n % align_colors = 0 := by
  unfold alignUp
  exact Nat.mul_mod_left _ _

theorem blockOffsets_aligned (sizes : List Nat) (cur b : Nat) (hcur : cur % align_colors = 0)
    (hb : b < sizes.length) : (blockOffsets cur sizes).getD b 0 % align_colors = 0 := by
  induction sizes generalizing cur b with
  | nil => simp at hb
  | cons size rest ih =>
    cases b with
    | zero => simpa [blockOffsets] using hcur
    | succ b =>
      simp only [blockOffsets, List.getD_cons_succ]
      exact ih (alignUp (cur + size)) b (alignUp_mod _) (by simpa using hb)

theorem blockOffsets_injective (sizes : List Nat) (cur b k b2 k2 : Nat)
    (hb : b < sizes.length) (hk : k < sizes.getD b 0)
    (hb2 : b2 < sizes.length) (hk2 : k2 < sizes.getD b2 0)
    (heq : (blockOffsets cur sizes).getD b 0 + k = (blockOffsets cur sizes).getD b2 0 + k2) :
    b = b2 ∧ k = k2 := by
  rcases Nat.lt_trichotomy b b2 with h | h | h
  · have := blockOffsets_separated sizes cur b b2 h hb2
    omega
  · subst h
    exact ⟨rfl, by omega⟩
  · have := blockOffsets_separated sizes cur b2 b h hb
    omega

/-- The layout of `RenderTarget.create` is one of the layouts `CreatedFrom` admits. -/
theorem create_createdFrom (block_sizes : List Nat) :
    (RenderTarget.create block_sizes).CreatedFrom block_sizes := by
  refine ⟨blockOffsets_length block_sizes 0, ?_, ?_, ?_, ?_⟩
  · intro b hb
    exact blockOffsets_aligned block_sizes 0 b (Nat.zero_mod _) hb
  · intro b k hb hk
    have h := blockOffsets_in_buffer block_sizes 0 b k hb hk
    simpa [RenderTarget.get, RenderTarget.m_nbColors, RenderTarget.create] using h
  · intro b k b2 k2 hb hk hb2 hk2 heq
    exact blockOffsets_injective block_sizes 0 b k b2 k2 hb hk hb2 hk2 heq
  · intro c hc
    exact List.eq_of_mem_replicate hc

theorem createdFrom_sum_le (rt : RenderTarget) (block_sizes : List Nat)
    (h : rt.CreatedFrom block_sizes) : block_sizes.sum ≤ rt.size := by
  obtain ⟨_, _, hin, hinj, _⟩ := h
  have hget : ∀ b : Fin block_sizes.length, block_sizes.getD b.1 0 = block_sizes[b.1] := by
    intro b
    simp [List.getD_eq_getElem?_getD, List.getElem?_eq_getElem b.2]
  have hcard := Fintype.card_le_of_injective
    (fun p : (Σ b : Fin block_sizes.length, Fin (block_sizes[b.1])) =>
      (⟨rt.get p.1.1 p.2.1, hin _ _ p.1.2 (by rw [hget]; exact p.2.2)⟩ : Fin rt.m_nbColors))
    (by
      rintro ⟨b, k⟩ ⟨b2, k2⟩ heq
      have h2 := hinj b.1 k.1 b2.1 k2.1 b.2 (by rw [hget]; exact k.2) b2.2
        (by rw [hget]; exact k2.2) (congrArg Fin.val heq)
      obtain ⟨hb, hk⟩ := h2
      have hb2 : b = b2 := Fin.ext hb
      subst hb2
      have hk2 : k = k2 := Fin.ext hk
      subst hk2
      rfl)
  simp only [Fintype.card_sigma, Fintype.card_fin] at hcard
  rw [Fin.sum_univ_get] at hcard
  exact hcard

theorem createdFrom_4_3_size (rt : RenderTarget) (h : rt.CreatedFrom [4, 3]) :
    11 ≤ rt.size ∧ ∀ k, k < 4 → rt.get 0 k ≠ rt.get 1 0 := by
  obtain ⟨_, halign, hin, hinj, _⟩ := h
  have h8 : align_colors = 8 := rfl
  have a0 := halign 0 (by decide)
  have a1 := halign 1 (by decide)
  have i0 := hin 0 3 (by decide) (by decide)
  have i1 := hin 1 2 (by decide) (by decide)
  have hne : rt.get 0 0 ≠ rt.get 1 0 := fun heq =>
    absurd (hinj 0 0 1 0 (by decide) (by decide) (by decide) (by decide) heq).1 (by decide)
  rw [h8] at a0 a1
  simp only [RenderTarget.get] at i0 i1 hne
  refine ⟨?_, ?_⟩
  · show 11 ≤ rt.m_nbColors
    omega
  · intro k hk heq
    exact absurd (hinj 0 k 1 0 (by decide) (by simpa using hk) (by decide) (by decide) heq).1
      (by decide)

/-- C4 (as stated, at block sizes `[4, 3]`): no buffer that holds a block of 4 and a block of
3 cells, each starting on a multiple of 8 cells and sharing no cell, has 7 cells between
`begin()` and `end()`; such buffers exist, the one of `RenderTarget.create` among them. -/
theorem C4_flat_length_is_not_the_sum :
    (∃ size ∈ ([4, 3] : List Nat), size ≠ 0) ∧
    (∃ rt : RenderTarget, rt.CreatedFrom [4, 3]) ∧
    ¬ ∃ rt : RenderTarget, rt.CreatedFrom [4, 3] ∧ rt.flat.length = ([4, 3] : List Nat).sum := by
  refine ⟨by decide, ⟨RenderTarget.create [4, 3], create_createdFrom [4, 3]⟩, ?_⟩
  rintro ⟨rt, hrt, hlen⟩
  have h11 := (createdFrom_4_3_size rt hrt).1
  have hflat : rt.flat.length = rt.size := by
    simp [RenderTarget.flat, RenderTarget.size, RenderTarget.m_nbColors]
  have hsum : ([4, 3] : List Nat).sum = 7 := by decide
  omega

/-- C4 (amended): the cells from `begin()` to `end()` of a buffer created from a block-size
sequence are `size()` cells, all transparent, and `size()` is at least the sum of the block
sizes, the padding cells that align the blocks being part of the buffer; for block sizes
`[4, 3]` they are at least 11 cells, and `get(1, 0)` is the first cell of the second block, a
cell of the buffer that no key of the first block has. -/
theorem C4_flat_length_is_at_least_the_sum (block_sizes : List Nat) (rt : RenderTarget)
    (h : rt.CreatedFrom block_sizes) :
    rt.flat.length = rt.size ∧
    block_sizes.sum ≤ rt.flat.length ∧
    (∀ c ∈ rt.flat, c = transparent) ∧
    (block_sizes = [4, 3] →
      11 ≤ rt.flat.length ∧ rt.get 1 0 = rt.m_blocks.getD 1 0 ∧ rt.get 1 0 < rt.size ∧
      ∀ k, k < 4 → rt.get 0 k ≠ rt.get 1 0) := by
  have hflat : rt.flat = rt.m_colors := by
    simp [RenderTarget.flat, RenderTarget.m_nbColors]
  have hlen : rt.flat.length = rt.size := by
    rw [hflat]; rfl
  refine ⟨hlen, ?_, ?_, ?_⟩
  · rw [hlen]
    exact createdFrom_sum_le rt block_sizes h
  · intro c hc
    rw [hflat] at hc
    exact h.2.2.2.2 c hc
  · intro hsizes
    subst hsizes
    have h43 := createdFrom_4_3_size rt h
    refine ⟨by rw [hlen]; exact h43.1, rfl, h.2.2.1 1 0 (by decide) (by decide), h43.2⟩

/-- C4 (amended) for the buffer `RenderTarget.create` lays out from block sizes `[4, 3]`. -/
theorem C4_flat_length_is_at_least_the_sum_witness :
    (RenderTarget.create [4, 3]).CreatedFrom [4, 3] ∧
    ([4, 3] : List Nat).sum ≤ (RenderTarget.create [4, 3]).flat.length :=
  ⟨create_createdFrom [4, 3], (C4_flat_length_is_at_least_the_sum [4, 3]
    (RenderTarget.create [4, 3]) (create_createdFrom [4, 3])).2.1⟩

/-- C5: in the buffer created from a block-size sequence, two different valid pairs
`(b, k)` and `(b2, k2)` (block index below the number of blocks, key index below the size of
the block) are given different cells by `get`, both inside the buffer, and `get(desc)` is the
cell `get(desc.first, desc.second)`. -/
theorem C5_get_injective_on_valid_pairs (block_sizes : List Nat) (b k b2 k2 : Nat)
    (hb : b < block_sizes.length) (hk : k < block_sizes[b])
    (hb2 : b2 < block_sizes.length) (hk2 : k2 < block_sizes[b2])
    (hne : (b, k) ≠ (b2, k2)) :
    (RenderTarget.create block_sizes).get b k ≠ (RenderTarget.create block_sizes).get b2 k2 ∧
    (RenderTarget.create block_sizes).get b k < (RenderTarget.create block_sizes).size ∧
    (RenderTarget.create block_sizes).get b2 k2 < (RenderTarget.create block_sizes).size ∧
    (∀ desc : Nat × Nat, (RenderTarget.create block_sizes).getDesc desc
      = (RenderTarget.create block_sizes).get desc.1 desc.2) := by
  have hkD : k < block_sizes.getD b 0 := by
    simpa [List.getD_eq_getElem?_getD, List.getElem?_eq_getElem hb] using hk
  have hk2D : k2 < block_sizes.getD b2 0 := by
    simpa [List.getD_eq_getElem?_getD, List.getElem?_eq_getElem hb2] using hk2
  have hin1 := blockOffsets_in_buffer block_sizes 0 b k hb hkD
  have hin2 := blockOffsets_in_buffer block_sizes 0 b2 k2 hb2 hk2D
  have hsz : (RenderTarget.create block_sizes).size = layoutEnd 0 block_sizes := by
    simp [RenderTarget.size, RenderTarget.m_nbColors, RenderTarget.create]
  refine ⟨?_, by rw [hsz]; exact hin1, by rw [hsz]; exact hin2, fun _ => rfl⟩
  simp only [RenderTarget.get, RenderTarget.create]
  rcases Nat.lt_trichotomy b b2 with h | h | h
  · have := blockOffsets_separated block_sizes 0 b b2 h hb2
    omega
  · subst h
    have hkne : k ≠ k2 := fun hkk => hne (by rw [hkk])
    omega
  · have := blockOffsets_separated block_sizes 0 b2 b h hb
    omega

/-- C5 for block sizes `[4, 3]`: the last key of the first block and the first key of the
second block have different cells. -/
theorem C5_get_injective_on_valid_pairs_witness :
    (0, 3) ≠ (1, 0) ∧
    (RenderTarget.create [4, 3]).get 0 3 ≠ (RenderTarget.create [4, 3]).get 1 0 :=
  ⟨by decide, (C5_get_injective_on_valid_pairs [4, 3] 0 3 1 0 (by decide) (by decide)
    (by decide) (by decide) (by decide)).1⟩

/-! ## Order of the renderers in a tick -/

theorem keyWriter_read (c : RGBAColor) (nanosec : Nat) (target : RenderTarget)
    (h : target.get 0 0 < target.size) :
    (keyWriter c nanosec target).read ((keyWriter c nanosec target).get 0 0) = c ∧
    (keyWriter c nanosec target).get 0 0 = target.get 0 0 ∧
    (keyWriter c nanosec target).size = target.size := by
  have h2 : target.m_blocks.getD 0 0 + 0 < target.m_colors.length := h
  refine ⟨?_, rfl, ?_⟩
  · show (target.m_colors.set (target.m_blocks.getD 0 0 + 0) c).getD
      (target.m_blocks.getD 0 0 + 0) transparent = c
    rw [List.getD_eq_getElem?_getD, List.getElem?_set_self h2]
    rfl
  · show (target.m_colors.set (target.m_blocks.getD 0 0 + 0) c).length = target.m_colors.length
    exact List.length_set _ _ _

/-- C6: one tick of a loop whose list is `[X, Y]`, with `X` writing red at full alpha and `Y`
blue at full alpha to key `(0, 0)`, commits blue at key `(0, 0)`; with the list `[Y, X]` it
commits red; in general the last renderer of a list is run on what the renderers before it
left. Key `(0, 0)` is assumed to be a cell of the buffer. -/
theorem C6_later_renderer_wins (loop : RenderLoop) (nanosec : Nat)
    (hkey : loop.m_state.get 0 0 < loop.m_state.size) :
    (((loop.setRenderers [keyWriter solidRed, keyWriter solidBlue]).render nanosec).1.m_state.read
      (((loop.setRenderers [keyWriter solidRed, keyWriter solidBlue]).render nanosec).1.m_state.get
        0 0) = solidBlue) ∧
    (((loop.setRenderers [keyWriter solidBlue, keyWriter solidRed]).render nanosec).1.m_state.read
      (((loop.setRenderers [keyWriter solidBlue, keyWriter solidRed]).render nanosec).1.m_state.get
        0 0) = solidRed) ∧
    (∀ (renderers : List Renderer) (last : Renderer),
      ((loop.setRenderers (renderers ++ [last])).render nanosec).1.m_state
        = last nanosec ((loop.setRenderers renderers).render nanosec).1.m_state) := by
  refine ⟨?_, ?_, ?_⟩
  · have h1 := keyWriter_read solidRed nanosec loop.m_state hkey
    have h2 := keyWriter_read solidBlue nanosec (keyWriter solidRed nanosec loop.m_state)
      (by rw [h1.2.1, h1.2.2]; exact hkey)
    simpa [RenderLoop.render, RenderLoop.setRenderers] using h2.1
  · have h1 := keyWriter_read solidBlue nanosec loop.m_state hkey
    have h2 := keyWriter_read solidRed nanosec (keyWriter solidBlue nanosec loop.m_state)
      (by rw [h1.2.1, h1.2.2]; exact hkey)
    simpa [RenderLoop.render, RenderLoop.setRenderers] using h2.1
  · intro renderers last
    simp [RenderLoop.render, RenderLoop.setRenderers, List.foldl_append]

/-- C6 for a loop created from block sizes `[4, 3]` and a tick of 16 ms. -/
theorem C6_later_renderer_wins_witness :
    (RenderLoop.new [4, 3] []).m_state.get 0 0 < (RenderLoop.new [4, 3] []).m_state.size ∧
    ((((RenderLoop.new [4, 3] []).setRenderers
      [keyWriter solidRed, keyWriter solidBlue]).render 16000000).1.m_state.read
      ((((RenderLoop.new [4, 3] []).setRenderers
        [keyWriter solidRed, keyWriter solidBlue]).render 16000000).1.m_state.get 0 0)
      = solidBlue) :=
  ⟨by decide, (C6_later_renderer_wins (RenderLoop.new [4, 3] []) 16000000 (by decide)).1⟩

/-! ## The theorems on `render` at concrete inputs -/

/-- C2 for a group holding key 0 of two keys: after an earlier call, `render` leaves cell 1
of a painted target as it was. -/
theorem C2_render_leaves_other_cells_witness :
    paintedTarget.size = groupService.createRenderTarget.size ∧
    ((((WaveEffect.new plainOps groupService 2000).renderCalls
      [(5000, paintedTarget)]).render 300 paintedTarget).2).m_colors[1]?
      = paintedTarget.m_colors[1]? :=
  ⟨by decide, (C2_render_leaves_other_cells plainOps groupService 2000 [⟨0, ⟨0, 0, 5, 10⟩⟩] rfl
    [(5000, paintedTarget)] 300 paintedTarget (by decide) 1 (by decide)).1⟩

theorem stallService_entry :
    (WaveEffect.new plainOps stallService 1000).m_colors[
      ((WaveEffect.new plainOps stallService 1000).renderTphi 500 0).toNat]? = some solidRed := by
  have h : ((WaveEffect.new plainOps stallService 1000).renderTphi 500 0).toNat = 512 := by
    decide
  have hm : (WaveEffect.new plainOps stallService 1000).m_colors
      = generateColorTable plainOps [solidRed] := by
    simp only [WaveEffect.new, stallService, Option.getD]
  have hv : plainOps.interpolate (([solidRed] : List RGBAColor).getD 0 transparent)
      (([solidRed] : List RGBAColor).getD ((0 + 1) % ([solidRed] : List RGBAColor).length)
        transparent)
      (512 - rangeBound ([solidRed] : List RGBAColor).length 0)
      (rangeBound ([solidRed] : List RGBAColor).length (0 + 1)
        - rangeBound ([solidRed] : List RGBAColor).length 0) = solidRed := rfl
  rw [h, hm, generateColorTable_entry plainOps [solidRed] 0 512 (by decide) (by decide)
    (by decide), hv]

/-- C3 for a table generated from the single colour red: the blue cell of key 0 becomes red. -/
theorem C3_full_alpha_entry_replaces_cell_witness :
    solidRed.alpha = 255 ∧
    ((WaveEffect.new plainOps stallService 1000).render 500 ⟨[solidBlue], [0]⟩).2.m_colors[0]?
      = some solidRed :=
  ⟨rfl, C3_full_alpha_entry_replaces_cell (WaveEffect.new plainOps stallService 1000) 500
    ⟨[solidBlue], [0]⟩ 0 ⟨0, ⟨0, 0, 10, 10⟩⟩ 0 solidRed (by decide) (by decide) (by decide)
    stallService_entry rfl (by decide) (by decide) (by intro j key2 hj h; cases j with
      | zero => omega
      | succ j => simp [WaveEffect.paintedKeys, WaveEffect.new, stallService] at h)⟩

/-! ## Normalised key positions -/

theorem subUnsigned_eq (bits a b : Nat) (hba : b ≤ a) (ha : a < 2 ^ bits) :
    subUnsigned bits a b = a - b := by
  unfold subUnsigned wrapUnsigned
  rw [Nat.mod_eq_of_lt (show b < 2 ^ bits by omega)]
  have h : a + 2 ^ bits - b = (a - b) + 2 ^ bits := by omega
  rw [h, Nat.add_mod_right, Nat.mod_eq_of_lt (by omega)]

/-- The horizontal coordinate is normalised with the horizontal bounds: for a valid layout
and a key whose centre lies between `x0` and `x1`, `xpos` lies in `[0, 1]`. -/
theorem keyPhase_xpos_unit_interval (bits : Nat) (bounds : Rect) (key : Key)
    (hfit : bounds.x1 < 2 ^ bits) (hvalid : bounds.x0 < bounds.x1)
    (hlo : bounds.x0 ≤ keyPhase_x bits key) (hhi : keyPhase_x bits key ≤ bounds.x1) :
    0 ≤ keyPhase_xpos bits bounds key ∧ keyPhase_xpos bits bounds key ≤ 1 := by
  unfold keyPhase_xpos
  rw [subUnsigned_eq bits _ _ hlo (by omega), subUnsigned_eq bits _ _ (le_of_lt hvalid) hfit]
  have hden : (0 : ℚ) < ((bounds.x1 - bounds.x0 : Nat) : ℚ) := by
    exact_mod_cast Nat.sub_pos_of_lt hvalid
  have hnum : ((keyPhase_x bits key - bounds.x0 : Nat) : ℚ) ≤ ((bounds.x1 - bounds.x0 : Nat) : ℚ) := by
    exact_mod_cast Nat.sub_le_sub_right hhi bounds.x0
  exact ⟨div_nonneg (Nat.cast_nonneg _) (le_of_lt hden), (div_le_one hden).mpr hnum⟩

/-- C11 (the code at the failing input, coordinates of 32 bits): in the valid layout with
bounds `x0 = 0, y0 = 0, x1 = 10, y1 = 20`, the key at `(4, 14)-(6, 16)` has its centre
`(5, 15)` within the bounds; `xpos` is `1/2`, but line 118 normalises `y` with `bounds.x0`
and `bounds.x1`, so `ypos` is `1 - 15/10 = -1/2`, outside `[0, 1]`. On the bottom edge
`y = y1 = 20` it is `-1`, not 0; on the top edge `y = y0 = 0` it is 1. -/
theorem C11_ypos_is_normalised_with_the_x_bounds :
    (tallBounds.x0 < tallBounds.x1 ∧ tallBounds.y0 < tallBounds.y1) ∧
    (tallBounds.x0 ≤ keyPhase_x 32 lowKey ∧ keyPhase_x 32 lowKey ≤ tallBounds.x1 ∧
      tallBounds.y0 ≤ keyPhase_y 32 lowKey ∧ keyPhase_y 32 lowKey ≤ tallBounds.y1) ∧
    keyPhase_xpos 32 tallBounds lowKey = 1 / 2 ∧
    keyPhase_ypos 32 tallBounds lowKey = -1 / 2 ∧
    ¬ (0 ≤ keyPhase_ypos 32 tallBounds lowKey ∧ keyPhase_ypos 32 tallBounds lowKey ≤ 1) ∧
    keyPhase_y 32 bottomKey = tallBounds.y1 ∧
    keyPhase_ypos 32 tallBounds bottomKey = -1 ∧
    keyPhase_ypos 32 tallBounds bottomKey ≠ 0 ∧
    keyPhase_y 32 topKey = tallBounds.y0 ∧
    keyPhase_ypos 32 tallBounds topKey = 1 := by
  have hlow : keyPhase_ypos 32 tallBounds lowKey = -1 / 2 := by
    norm_num [keyPhase_ypos, keyPhase_y, subUnsigned, wrapUnsigned, tallBounds, lowKey]
  have hbottom : keyPhase_ypos 32 tallBounds bottomKey = -1 := by
    norm_num [keyPhase_ypos, keyPhase_y, subUnsigned, wrapUnsigned, tallBounds, bottomKey]
  refine ⟨by decide, by decide, ?_, hlow, ?_, by decide, hbottom, ?_, by decide, ?_⟩
  · norm_num [keyPhase_xpos, keyPhase_x, subUnsigned, wrapUnsigned, tallBounds, lowKey]
  · rw [hlow]; norm_num
  · rw [hbottom]; norm_num
  · norm_num [keyPhase_ypos, keyPhase_y, subUnsigned, wrapUnsigned, tallBounds, topKey]

end keyleds
